import Mathlib

/-!
Verification development for the `insightmint-electron` file-access
detection subsystem (`src/FileAccessMonitor.js`, mirrored in `src/main.js`).

The JavaScript source is shallowly embedded: the pure string helpers
(`extractFilePaths`, `extractFileNamesFromTitle`, `path.extname`,
`getReaderName`) become Lean functions on `List Char` / `String`, and the
stateful engine (`processMap` dedup cache, watchers, timers, `stop`,
`getStatus`) becomes explicit state passing over a `MonitorState` record.
JavaScript regular-expression `exec` loops are embedded as fuel-indexed
scanners that reproduce the engine's leftmost-match, greedy-with-backtracking
semantics for the three concrete patterns used by the source.
-/

set_option autoImplicit false

/-- Lowercase a character, as JavaScript `toLowerCase` does on ASCII. -/
def lowerC (c : Char) : Char := c.toLower

/-- Lowercase every character of a string (JS `String.prototype.toLowerCase`
restricted to the ASCII data this program handles). -/
def lowerStr (s : String) : String := String.mk (s.toList.map lowerC)

/-- JavaScript `\s` whitespace class, restricted to ASCII. -/
def isSpaceJS (c : Char) : Bool :=
  c == ' ' || c == '\t' || c == '\n' || c == '\r' || c == '\x0b' || c == '\x0c'

/-- ASCII letter test, the `[A-Za-z]` character class. -/
def isAsciiLetter (c : Char) : Bool :=
  ('A' ≤ c && c ≤ 'Z') || ('a' ≤ c && c ≤ 'z')

/-- Case-insensitive prefix test: does `cs` start with the (lowercase)
pattern `pat`?  Implements the `i` flag of the source's regexes. -/
def ciPre : List Char → List Char → Bool
  | [], _ => true
  | _ :: _, [] => false
  | p :: ps, c :: cs => lowerC c == p && ciPre ps cs

/-- Case-insensitive suffix test against a (lowercase) pattern. -/
def ciSuf (pat cs : List Char) : Bool :=
  decide (pat.length ≤ cs.length) && ciPre pat (cs.drop (cs.length - pat.length))

/-- The three extension alternatives of the source regexes, as character
lists: `pdf`, `doc`, `docx`. -/
def pdfE : List Char := ['p', 'd', 'f']

/-- The `doc` alternative. -/
def docE : List Char := ['d', 'o', 'c']

/-- The `docx` alternative. -/
def docxE : List Char := ['d', 'o', 'c', 'x']

/-- Alternation order `(pdf|doc|docx)` as written in the source regexes.
JavaScript alternation is ordered, so `doc` is tried before `docx`. -/
def implOrder : List (List Char) := [pdfE, docE, docxE]

/-- Try the extension alternatives in order, returning the first one that
case-insensitively prefixes `cs` (JS ordered alternation). -/
def extTry (order : List (List Char)) (cs : List Char) : Option (List Char) :=
  order.find? (fun e => ciPre e cs)

/-- Anchored match of the regex fragment `[^X]*\.(ext1|ext2|...)` at the
start of `cs`, where `stop` is the excluded character class `X` and `order`
the alternation.  Mirrors the JS engine: the star is greedy, so the
rightmost eligible dot is preferred (the recursive star-extension branch is
tried before treating the current character as the dot).  Returns the
matched text (group 1, with original casing) and the remainder after the
match. -/
def scanDots (stop : Char → Bool) (order : List (List Char)) :
    List Char → Option (List Char × List Char)
  | [] => none
  | c :: rest =>
    if stop c then none
    else
      match scanDots stop order rest with
      | some (g, r) => some (c :: g, r)
      | none =>
        if c = '.' then
          match extTry order rest with
          | some e => some (c :: rest.take e.length, rest.drop e.length)
          | none => none
        else none

/-- One `while ((match = regex.exec(s)) !== null)` loop for a
`[^X]*\.(exts)` regex with the global flag: on a match, continue after the
match; on failure, advance one character (the engine retries at the next
start position).  Fuel-indexed for structural recursion; callers pass
`cs.length`, which always suffices. -/
def execLoop (stop : Char → Bool) (order : List (List Char)) :
    Nat → List Char → List (List Char)
  | 0, _ => []
  | _ + 1, [] => []
  | fuel + 1, c :: rest =>
    match scanDots stop order (c :: rest) with
    | some (g, r) => g :: execLoop stop order fuel r
    | none => execLoop stop order fuel rest

/-- Excluded class of the window-title regex `([^\\\/]*\.(pdf|doc|docx))`:
backslash and forward slash. -/
def stopT (c : Char) : Bool := c == '\\' || c == '/'

/-- Excluded class of the bare-path regex `([^\s"]*\.(pdf|doc|docx))`:
whitespace and the double quote. -/
def stopS (c : Char) : Bool := isSpaceJS c || c == '"'

/-- `FileAccessMonitor.extractFileNamesFromTitle`: run the title regex
`/([^\\\/]*\.(pdf|doc|docx))/gi` over the title and collect group 1 of
every match. -/
def extractFileNamesFromTitle (title : String) : List String :=
  (execLoop stopT implOrder title.toList.length title.toList).map String.mk

/-- Does a quoted-pattern body (the text between two double quotes) match
`[^"]*\.(pdf|doc|docx)` exactly up to the closing quote?  Because the star
cannot cross a quote and the closing quote must immediately follow the
alternation, the quoted regex `"([^"]*\.(pdf|doc|docx))"` matches at an
opening quote iff the quote-free body ends with one of the dotted
extensions (case-insensitively). -/
def qMatch (body : List Char) : Bool :=
  ciSuf ['.', 'p', 'd', 'f'] body || ciSuf ['.', 'd', 'o', 'c'] body ||
    ciSuf ['.', 'd', 'o', 'c', 'x'] body

/-- Exec loop of the quoted-path regex `/"([^"]*\.(pdf|doc|docx))"/gi`:
attempts start only at a double quote; a successful match yields the body
between the quotes and resumes after the closing quote; a failed attempt
advances one character. -/
def quotedPass : Nat → List Char → List (List Char)
  | 0, _ => []
  | _ + 1, [] => []
  | fuel + 1, c :: rest =>
    if c = '"' then
      match rest.dropWhile (fun x => x != '"'), qMatch (rest.takeWhile (fun x => x != '"')) with
      | _ :: tail, true => rest.takeWhile (fun x => x != '"') :: quotedPass fuel tail
      | _, _ => quotedPass fuel rest
    else quotedPass fuel rest

/-- Exec loop of the drive-letter regex
`/([A-Za-z]:\\[^\s"]*\.(pdf|doc|docx))/gi`: a match needs a letter, a
colon, a backslash, then the `[^\s"]*\.(ext)` tail; group 1 includes the
drive prefix. -/
def drivePass : Nat → List Char → List (List Char)
  | 0, _ => []
  | _ + 1, [] => []
  | fuel + 1, c :: rest =>
    if isAsciiLetter c then
      match rest with
      | ':' :: '\\' :: rest2 =>
        match scanDots stopS implOrder rest2 with
        | some (g, r) => (c :: ':' :: '\\' :: g) :: drivePass fuel r
        | none => drivePass fuel rest
      | _ => drivePass fuel rest
    else drivePass fuel rest

/-- The push step of `extractFilePaths`:
`if (filePath && !paths.includes(filePath)) paths.push(filePath)`. -/
def pushUnique (acc : List (List Char)) (x : List Char) : List (List Char) :=
  if x = [] then acc else if x ∈ acc then acc else acc ++ [x]

/-- Push every match of one pattern pass, skipping duplicates. -/
def pushAll (acc : List (List Char)) (l : List (List Char)) : List (List Char) :=
  l.foldl pushUnique acc

/-- Core of `FileAccessMonitor.extractFilePaths` on character lists: run the
quoted, drive-letter and bare patterns in order, accumulating matches with
the duplicate filter. -/
def extractFilePathsCore (cs : List Char) : List (List Char) :=
  pushAll (pushAll (pushAll [] (quotedPass cs.length cs)) (drivePass cs.length cs))
    (execLoop stopS implOrder cs.length cs)

/-- `FileAccessMonitor.extractFilePaths` on a (non-null) string argument,
including the `if (!commandLine) return []` falsy guard for the empty
string. -/
def extractFilePaths (commandLine : String) : List String :=
  if commandLine = "" then [] else (extractFilePathsCore commandLine.toList).map String.mk

/-- `extractFilePaths` including the JavaScript null/undefined case of the
falsy guard (`none` stands for a missing command line). -/
def extractFilePathsJS : Option String → List String
  | none => []
  | some cl => extractFilePaths cl

/-- Scan state of Node's `path.extname` right-to-left loop: `startDot`,
`startPart` and `endIdx` index trackers plus `preDotState`
(`0` initial, `1` dot-run, `-1` name seen). -/
structure ExtSt where
  startDot : Option Nat
  startPart : Nat
  endIdx : Option Nat
  preDotState : Int
deriving DecidableEq

/-- The right-to-left index loop of Node `path.win32.extname`, transcribed
from `node:path`.  `i` is one past the index to examine next; the loop
stops at a path separator (recording `startPart`) or below `start`. -/
def extScan (cs : List Char) (start : Nat) : Nat → ExtSt → ExtSt
  | 0, st => st
  | i + 1, st =>
    if i < start then st
    else
      let c := cs.getD i ' '
      if c = '/' ∨ c = '\\' then { st with startPart := i + 1 }
      else
        let st1 := if st.endIdx = none then { st with endIdx := some (i + 1) } else st
        let st2 :=
          if c = '.' then
            match st1.startDot with
            | none => { st1 with startDot := some i }
            | some _ => if st1.preDotState ≠ 1 then { st1 with preDotState := 1 } else st1
          else if st1.startDot ≠ none then { st1 with preDotState := -1 }
          else st1
        extScan cs start i st2

/-- Node `path.win32.extname`: the extension of the last path component,
empty for dotless or dotfile names, with the drive-letter `start` special
case and the `preDotState` dot-run rules of the Node implementation. -/
def extname (p : String) : String :=
  let cs := p.toList
  let start :=
    if 2 ≤ cs.length ∧ cs.getD 1 ' ' = ':' ∧ isAsciiLetter (cs.getD 0 ' ') then 2 else 0
  let st := extScan cs start cs.length ⟨none, 0, none, 0⟩
  match st.startDot, st.endIdx with
  | some sd, some en =>
    if st.preDotState = 0 ∨ (st.preDotState = 1 ∧ sd = en - 1 ∧ sd = st.startPart + 1) then ""
    else String.mk ((cs.drop sd).take (en - sd))
  | _, _ => ""

/-- The last path component (Node `path.basename` for the separator-free
tails this program feeds it): the characters after the final `/` or `\`. -/
def basename (p : String) : String :=
  String.mk (p.toList.foldl (fun acc c => if c = '/' ∨ c = '\\' then [] else acc ++ [c]) [])

/-- `this.options.targetExtensions` default: the supported extension set. -/
def targetExtensions : List String := [".pdf", ".doc", ".docx"]

/-- A process record as the PowerShell sources deliver it.  The two scan
strategies use different field names (`Name`/`Id`/`Title` versus
`ProcessName`/`ProcessId`/`WindowTitle`), and `analyzeProcess` coalesces
them with `||`; absent JSON fields are `none`. -/
structure ProcData where
  Name : Option String := none
  ProcessName : Option String := none
  Id : Option Nat := none
  ProcessId : Option Nat := none
  Title : Option String := none
  WindowTitle : Option String := none
  CommandLine : Option String := none
deriving DecidableEq

/-- JavaScript truthiness of an optional string: `undefined` and `""` are
falsy. -/
def jsTruthyS (o : Option String) : Bool :=
  match o with
  | none => false
  | some s => s != ""

/-- JavaScript `a || b` on optional strings. -/
def jsOrS (a b : Option String) : Option String :=
  if jsTruthyS a then a else b

/-- JavaScript `a || b` on optional numbers (`undefined` and `0` falsy). -/
def jsOrN (a b : Option Nat) : Option Nat :=
  match a with
  | some n => if n = 0 then b else a
  | none => b

/-- Template-literal stringification of an optional string field
(`undefined` prints as `"undefined"`). -/
def jsShowS (o : Option String) : String :=
  match o with
  | none => "undefined"
  | some s => s

/-- Template-literal stringification of an optional number field. -/
def jsShowN (o : Option Nat) : String :=
  match o with
  | none => "undefined"
  | some n => toString n

/-- The `readerApps` table of `FileAccessMonitor`. -/
def readerApps : List (String × String) :=
  [("AcroRd32.exe", "Adobe Acrobat Reader"), ("Acrobat.exe", "Adobe Acrobat"),
   ("AcroRd32", "Adobe Acrobat Reader"), ("Acrobat", "Adobe Acrobat"),
   ("WINWORD.EXE", "Microsoft Word"), ("WINWORD", "Microsoft Word"),
   ("chrome.exe", "Google Chrome"), ("chrome", "Google Chrome"),
   ("firefox.exe", "Mozilla Firefox"), ("firefox", "Mozilla Firefox"),
   ("msedge.exe", "Microsoft Edge"), ("msedge", "Microsoft Edge"),
   ("FoxitReader.exe", "Foxit Reader"), ("SumatraPDF.exe", "SumatraPDF"),
   ("POWERPNT.EXE", "Microsoft PowerPoint"), ("EXCEL.EXE", "Microsoft Excel"),
   ("notepad.exe", "Notepad"), ("Code.exe", "Visual Studio Code")]

/-- `FileAccessMonitor.getReaderName`: look up the raw process name, then
the name with an `.exe` suffix, falling back to the raw name. -/
def getReaderName (processName : String) : String :=
  match (readerApps.find? (fun kv => kv.1 == processName)).map Prod.snd with
  | some label => label
  | none =>
    match (readerApps.find? (fun kv => kv.1 == processName ++ ".exe")).map Prod.snd with
    | some label => label
    | none => processName

/-- The normalized record emitted through the `fileOpened` event
(`reportFileOpened`'s argument). -/
structure FileOpenEvent where
  fileName : String
  fullPath : String
  extension : String
  readerApplication : String
  processName : String
  processId : Option Nat
  windowTitle : String
  timestamp : String
  source : String
deriving DecidableEq

/-- The command-line sub-step of `analyzeProcess`: path extraction,
lowercased-extension guard, one `Process Analysis` event per supported
path.  `ts` stands for `new Date().toISOString()` at emission time. -/
def analyzeCmdEvents (ts : String) (p : ProcData) : List FileOpenEvent :=
  if jsTruthyS p.CommandLine then
    (extractFilePaths (jsShowS p.CommandLine)).filterMap (fun fp =>
      if lowerStr (extname fp) ∈ targetExtensions then
        some { fileName := basename fp, fullPath := fp, extension := lowerStr (extname fp),
               readerApplication := getReaderName (jsShowS (jsOrS p.Name p.ProcessName)),
               processName := jsShowS (jsOrS p.Name p.ProcessName),
               processId := jsOrN p.Id p.ProcessId,
               windowTitle := jsShowS (jsOrS (jsOrS p.Title p.WindowTitle) (some "N/A")),
               timestamp := ts, source := "Process Analysis" }
      else none)
  else []

/-- The window-title sub-step of `analyzeProcess`: title extraction,
lowercased-extension guard, one `Window Title Analysis` event per
supported name, with the unknown-path sentinel as `fullPath`. -/
def analyzeTitleEvents (ts : String) (p : ProcData) : List FileOpenEvent :=
  if jsTruthyS (jsOrS p.Title p.WindowTitle) then
    (extractFileNamesFromTitle (jsShowS (jsOrS p.Title p.WindowTitle))).filterMap (fun fn =>
      if lowerStr (extname fn) ∈ targetExtensions then
        some { fileName := fn, fullPath := "Unknown (from window title)",
               extension := lowerStr (extname fn),
               readerApplication := getReaderName (jsShowS (jsOrS p.Name p.ProcessName)),
               processName := jsShowS (jsOrS p.Name p.ProcessName),
               processId := jsOrN p.Id p.ProcessId,
               windowTitle := jsShowS (jsOrS p.Title p.WindowTitle),
               timestamp := ts, source := "Window Title Analysis" }
      else none)
  else []

/-- `FileAccessMonitor.analyzeProcess` as the list of events it reports:
the command-line sub-step followed unconditionally by the window-title
sub-step (the two are not alternatives). -/
def analyzeProcessEvents (ts : String) (p : ProcData) : List FileOpenEvent :=
  analyzeCmdEvents ts p ++ analyzeTitleEvents ts p

/-- Engine state: the `isMonitoring` flag, the dedup cache `processMap`
(key to first-seen timestamp, insertion order preserved), the directory
watcher handles keyed by directory, and the stored interval timers. -/
structure MonitorState where
  isMonitoring : Bool
  processMap : List (String × Nat)
  fileWatchers : List String
  intervals : List Nat
deriving DecidableEq

/-- The constructor state of `FileAccessMonitor`: not monitoring, empty
cache, no watchers, no timers. -/
def initialState : MonitorState := ⟨false, [], [], []⟩

/-- `Map.prototype.has` on the association-list model. -/
def mapHas (m : List (String × Nat)) (k : String) : Bool :=
  m.any (fun kv => kv.1 == k)

/-- `Map.prototype.set` for a key known to be absent (the only way the
source inserts): append, preserving iteration order. -/
def mapSet (m : List (String × Nat)) (k : String) (v : Nat) : List (String × Nat) :=
  m ++ [(k, v)]

/-- `startAdvancedMonitoring` state effect when not already monitoring:
set the flag, install the four interval timers and the directory watchers
(timer handles and existing watch directories abstracted as given). -/
def startAdvanced (timerIds : List Nat) (watchDirs : List String) (s : MonitorState) :
    MonitorState :=
  if s.isMonitoring then s
  else { isMonitoring := true, processMap := s.processMap, fileWatchers := watchDirs,
         intervals := timerIds }

/-- `FileAccessMonitor.stop`.  `closeFails` models which watcher `close()`
calls throw; each failure is caught and logged (returned in the second
component), never propagated, and clearing proceeds regardless.  When not
monitoring, the call returns immediately without touching state. -/
def stopWith (closeFails : String → Bool) (s : MonitorState) : MonitorState × List String :=
  if s.isMonitoring = false then (s, [])
  else
    ({ isMonitoring := false, processMap := [], fileWatchers := [], intervals := [] },
     s.fileWatchers.filter closeFails)

/-- `FileAccessMonitor.getStatus` result record. -/
structure Status where
  isMonitoring : Bool
  processCount : Nat
  watcherCount : Nat
  intervalCount : Nat
deriving DecidableEq

/-- `FileAccessMonitor.getStatus`: a side-effect-free snapshot. -/
def getStatus (s : MonitorState) : Status :=
  ⟨s.isMonitoring, s.processMap.length, s.fileWatchers.length, s.intervals.length⟩

/-- `FileAccessMonitor.cleanupOldProcesses`: delete every cache entry whose
age exceeds `maxAge` (`this.options.maxProcessAge`, default 300000 ms). -/
def cleanupOldProcesses (maxAge now : Nat) (s : MonitorState) : MonitorState :=
  { s with processMap := s.processMap.filter (fun kv => decide (now - kv.2 ≤ maxAge)) }

/-- The dedup key of the process-scan strategy:
`` `${process.Id}-${process.Name}` ``. -/
def scanKey (p : ProcData) : String :=
  jsShowN p.Id ++ "-" ++ jsShowS p.Name

/-- One iteration of the `processes.forEach` body in `quickProcessScan`'s
callback: skip keys already cached, otherwise cache the key and hand the
record to `analyzeProcess` (collected in the second component). -/
def quickScanFold (now : Nat) (acc : MonitorState × List ProcData) (p : ProcData) :
    MonitorState × List ProcData :=
  let key := scanKey p
  if mapHas acc.1.processMap key then acc
  else ({ acc.1 with processMap := mapSet acc.1.processMap key now }, acc.2 ++ [p])

/-- The callback of `quickProcessScan` on an already-parsed process batch:
returns the updated state and the records passed to `analyzeProcess`, in
order.  An empty batch (`result.length > 0` fails) does nothing. -/
def quickProcessScanCB (now : Nat) (procs : List ProcData) (s : MonitorState) :
    MonitorState × List ProcData :=
  if procs.isEmpty then (s, []) else procs.foldl (quickScanFold now) (s, [])

/-- The `fileOpened` events of one process-scan callback: every analyzed
record goes through `analyzeProcess`. -/
def quickScanEvents (ts : String) (now : Nat) (procs : List ProcData) (s : MonitorState) :
    MonitorState × List FileOpenEvent :=
  let r := quickProcessScanCB now procs s
  (r.1, r.2.flatMap (analyzeProcessEvents ts))

/-- Outcome of one `exec(powershell ...)` call: a non-zero exit (the
`error` argument of the Node callback) or captured stdout. -/
inductive ExecOutcome where
  | execFail (msg : String)
  | execOut (stdout : String)
deriving DecidableEq

/-- JavaScript `String.prototype.trim` on the character list. -/
def jsTrim (cs : List Char) : List Char :=
  ((cs.dropWhile isSpaceJS).reverse.dropWhile isSpaceJS).reverse

/-- `FileAccessMonitor.executeCommand`: on an exec error, log and return
without invoking the callback; on empty (post-trim) stdout, do nothing; on
a JSON parse failure (`parse` returns `none`), log and do nothing; only a
parsed result reaches the callback.  `noop` is the caller-visible value
when the callback never runs. -/
def executeCommand {J α : Type} (parse : String → Option J) (outcome : ExecOutcome)
    (noop : α) (cb : J → α) : α :=
  match outcome with
  | .execFail _ => noop
  | .execOut out =>
    if jsTrim out.toList = [] then noop
    else
      match parse out with
      | some j => cb j
      | none => noop

/-- One full process-scan poll cycle: run the shell command, and on a
parsed batch run the dedup/analyze callback.  `parse` abstracts
`JSON.parse` plus the `Array.isArray` normalization. -/
def processScanCycle (parse : String → Option (List ProcData)) (outcome : ExecOutcome)
    (now : Nat) (s : MonitorState) : MonitorState × List ProcData :=
  executeCommand parse outcome (s, []) (fun procs => quickProcessScanCB now procs s)

/-- `FileAccessMonitor.handleFileSystemEvent`: on a change event whose
filename has a supported (lowercased) extension, schedule the delayed
`checkFileAccess` with the joined full path; otherwise do nothing. -/
def handleFileSystemEvent (dir filename : String) : Option (String × String) :=
  if lowerStr (extname filename) ∈ targetExtensions then some (dir ++ "\\" ++ filename, filename)
  else none

/-- The callback of `checkFileAccess`: one `File System Monitor` event per
process returned by the confirmation query.  Note the `extension` field is
`path.extname(fileName)` without lowercasing. -/
def checkFileAccessEvents (filePath fileName ts : String) (procs : List ProcData) :
    List FileOpenEvent :=
  procs.map (fun pr =>
    { fileName := fileName, fullPath := filePath, extension := extname fileName,
      readerApplication := getReaderName (jsShowS pr.Name), processName := jsShowS pr.Name,
      processId := pr.Id, windowTitle := jsShowS pr.Title, timestamp := ts,
      source := "File System Monitor" })

/-- The events of the directory-watch detection path for one change event:
the `handleFileSystemEvent` extension gate followed by the
`checkFileAccess` confirmation callback on the process-query result. -/
def fsEventEvents (dir filename : String) (procs : List ProcData) (ts : String) :
    List FileOpenEvent :=
  match handleFileSystemEvent dir filename with
  | some (fp, fn) => checkFileAccessEvents fp fn ts procs
  | none => []

/-- A resolved recent-items shortcut (`TargetPath`/`Arguments` of the
PowerShell result). -/
structure RecentShortcut where
  TargetPath : Option String := none
  Arguments : Option String := none
deriving DecidableEq

/-- The callback of `analyzeRecentFile`: if the shortcut resolved to a
target with a supported (lowercased) extension, emit one
`Recent Files Monitor` event with the sentinel reader and process
identity. -/
def recentFileEvents (res : RecentShortcut) (ts : String) : List FileOpenEvent :=
  if jsTruthyS res.TargetPath then
    if lowerStr (extname (jsShowS res.TargetPath)) ∈ targetExtensions then
      [{ fileName := basename (jsShowS res.TargetPath), fullPath := jsShowS res.TargetPath,
         extension := lowerStr (extname (jsShowS res.TargetPath)),
         readerApplication := "Recently Accessed", processName := "System",
         processId := none, windowTitle := "undefined", timestamp := ts,
         source := "Recent Files Monitor" }]
    else []
  else []

/-- `String.mk` is injective (two strings with the same character data are
equal). -/
theorem string_mk_injective : Function.Injective String.mk := by
  intro a b h
  injection h

/-- The character data of `String.mk`. -/
theorem toList_mk (cs : List Char) : (String.mk cs).toList = cs := rfl

/-- `pushUnique` preserves distinctness of the accumulator. -/
theorem pushUnique_nodup (acc : List (List Char)) (x : List Char) (h : acc.Nodup) :
    (pushUnique acc x).Nodup := by
  unfold pushUnique
  split
  · exact h
  · split
    · exact h
    · next hx => simp [List.nodup_append, h, hx]

/-- `pushAll` preserves distinctness of the accumulator. -/
theorem pushAll_nodup (l : List (List Char)) (acc : List (List Char)) (h : acc.Nodup) :
    (pushAll acc l).Nodup := by
  induction l generalizing acc with
  | nil => exact h
  | cons y ys ih => exact ih _ (pushUnique_nodup _ _ h)

/-- `pushUnique` never drops existing elements. -/
theorem mem_pushUnique (acc : List (List Char)) (x a : List Char) (h : a ∈ acc) :
    a ∈ pushUnique acc x := by
  unfold pushUnique
  split
  · exact h
  · split
    · exact h
    · exact List.mem_append_left _ h

/-- `pushAll` never drops existing elements. -/
theorem mem_pushAll (l : List (List Char)) (acc : List (List Char)) (a : List Char)
    (h : a ∈ acc) : a ∈ pushAll acc l := by
  induction l generalizing acc with
  | nil => exact h
  | cons y ys ih => exact ih _ (mem_pushUnique _ _ _ h)

/-- The accumulated path list of `extractFilePaths` is always duplicate
free, whatever the three passes matched. -/
theorem extractFilePathsCore_nodup (cs : List Char) : (extractFilePathsCore cs).Nodup :=
  pushAll_nodup _ _ (pushAll_nodup _ _ (pushAll_nodup _ _ List.nodup_nil))

/-- C10: for every input, including null, undefined and the empty command
line (which all return the empty list), `extractFilePaths` returns a list
of pairwise distinct paths — no path appears twice however many of the
three patterns matched it. -/
theorem extractFilePaths_nodup :
    (∀ cl : Option String, (extractFilePathsJS cl).Nodup) ∧
    extractFilePathsJS none = [] ∧ extractFilePathsJS (some "") = [] := by
  refine ⟨?_, rfl, rfl⟩
  intro cl
  match cl with
  | none => exact List.nodup_nil
  | some s =>
    show (extractFilePaths s).Nodup
    unfold extractFilePaths
    split
    · exact List.nodup_nil
    · exact (extractFilePathsCore_nodup _).map string_mk_injective

/-- C10 witness: the paths extracted from a concrete command line in which
all three patterns match the same path are distinct (here: a single copy). -/
theorem extractFilePaths_nodup_witness :
    (extractFilePathsJS (some "open \"C:\\d\\x.pdf\" C:\\d\\x.pdf")).Nodup :=
  extractFilePaths_nodup.1 (some "open \"C:\\d\\x.pdf\" C:\\d\\x.pdf")

/-- C8: `stop()` on a never-started engine is a no-op with no state change,
`stop()` when not monitoring is always a no-op, and a second `stop()` right
after a first one does nothing (idempotence), whatever the watcher close
outcomes. -/
theorem stop_idempotent :
    (∀ f, stopWith f initialState = (initialState, [])) ∧
    (∀ f s, s.isMonitoring = false → stopWith f s = (s, [])) ∧
    (∀ f g s, stopWith f (stopWith g s).1 = ((stopWith g s).1, [])) := by
  refine ⟨fun f => rfl, fun f s h => by simp [stopWith, h], fun f g s => ?_⟩
  by_cases h : s.isMonitoring = false
  · simp [stopWith, h]
  · simp [stopWith, h]

/-- C8 witness: stopping a concrete non-monitoring state changes nothing. -/
theorem stop_idempotent_witness :
    stopWith (fun _ => true) ⟨false, [("7-chrome", 5)], ["dirA"], [1]⟩ =
      (⟨false, [("7-chrome", 5)], ["dirA"], [1]⟩, []) :=
  stop_idempotent.2.1 (fun _ => true) ⟨false, [("7-chrome", 5)], ["dirA"], [1]⟩ rfl

/-- C9: on a running engine, `stop()` clears the timers, watcher set and
dedup cache and drops the monitoring flag — close failures are returned to
the logger, never propagated — so `getStatus()` immediately afterwards
reports not monitoring, cache size 0, watcher count 0 and timer count 0. -/
theorem stop_clears_and_status (f : String → Bool) (s : MonitorState)
    (h : s.isMonitoring = true) :
    (stopWith f s).1 = ⟨false, [], [], []⟩ ∧
    (stopWith f s).2 = s.fileWatchers.filter f ∧
    getStatus (stopWith f s).1 = ⟨false, 0, 0, 0⟩ := by
  simp [stopWith, h, getStatus]

/-- C9 witness: stopping a concrete running engine with one failing watcher
close still reports a fully cleared status. -/
theorem stop_clears_and_status_witness :
    getStatus (stopWith (fun _ => true) ⟨true, [("7-chrome", 5)], ["dirA", "dirB"], [0, 1, 2, 3]⟩).1 =
      ⟨false, 0, 0, 0⟩ :=
  (stop_clears_and_status (fun _ => true) ⟨true, [("7-chrome", 5)], ["dirA", "dirB"], [0, 1, 2, 3]⟩
    rfl).2.2

/-- C2: a poll cycle whose shell command exits non-zero, or whose stdout
fails to parse as JSON, leaves the engine state (dedup cache, timers, flag)
unchanged and analyzes nothing — the failure is absorbed inside
`executeCommand`, so scheduling continues from the same state. -/
theorem failed_cycle_no_effect (parse : String → Option (List ProcData)) (now : Nat)
    (s : MonitorState) :
    (∀ msg, processScanCycle parse (.execFail msg) now s = (s, [])) ∧
    (∀ out, parse out = none → processScanCycle parse (.execOut out) now s = (s, [])) := by
  constructor
  · intro msg
    rfl
  · intro out h
    simp [processScanCycle, executeCommand, h]

/-- C2 witness: a concrete unparseable stdout leaves a concrete state
untouched. -/
theorem failed_cycle_no_effect_witness :
    processScanCycle (fun _ => none) (ExecOutcome.execOut "not json") 5 initialState =
      (initialState, []) :=
  (failed_cycle_no_effect (fun _ => none) 5 initialState).2 "not json" rfl

/-- A process-scan result that arrives only after `stop()` has run. -/
def lateScanProc : ProcData where
  Name := some "AcroRd32"
  Id := some 42
  Title := some "x.pdf - Adobe Reader"

/-- A running engine state (as left by `startAdvancedMonitoring`). -/
def runningStateEx : MonitorState := ⟨true, [], ["dirA"], [0, 1, 2, 3]⟩

/-- C3 (refuted by the code): the `quickProcessScan` callback never checks
`isMonitoring`, so a result arriving after `stop()` is still processed — it
re-inserts a dedup key into the just-cleared cache and emits `fileOpened`
events instead of being silently discarded. -/
theorem late_result_after_stop_processed :
    (stopWith (fun _ => false) runningStateEx).1.isMonitoring = false ∧
    (quickScanEvents "t0" 400000 [lateScanProc]
        (stopWith (fun _ => false) runningStateEx).1).1.processMap =
      [("42-AcroRd32", 400000)] ∧
    (quickScanEvents "t0" 400000 [lateScanProc]
        (stopWith (fun _ => false) runningStateEx).1).2 ≠ [] := by
  decide

/-- A key absent from a map stays absent in any filtered submap. -/
theorem mapHas_filter (m : List (String × Nat)) (k : String) (pred : String × Nat → Bool)
    (h : mapHas m k = false) : mapHas (m.filter pred) k = false := by
  simp only [mapHas, List.any_eq_false] at h ⊢
  intro x hx
  exact h x (List.mem_filter.mp hx).1

/-- C1: a `(pid, name)` pair delivered twice while its dedup key resides in
the cache is handed to `analyzeProcess` exactly once (first scan analyzes,
second is skipped); once the periodic cleanup has purged the entry —
which happens exactly when its age exceeds the max age — the same pair is
analyzed again. -/
theorem dedup_once_per_residency (p : ProcData) (s : MonitorState)
    (maxAge t1 t2 t3 t4 : Nat)
    (hkey : mapHas s.processMap (scanKey p) = false)
    (h12 : t2 - t1 ≤ maxAge)
    (h31 : maxAge < t3 - t1) :
    (quickProcessScanCB t1 [p] s).2 = [p] ∧
    (quickProcessScanCB t2 [p] (quickProcessScanCB t1 [p] s).1).2 = [] ∧
    (quickProcessScanCB t4 [p]
        (cleanupOldProcesses maxAge t3
          (quickProcessScanCB t2 [p] (quickProcessScanCB t1 [p] s).1).1)).2 = [p] := by
  have h1 : quickProcessScanCB t1 [p] s =
      ({ s with processMap := mapSet s.processMap (scanKey p) t1 }, [p]) := by
    simp [quickProcessScanCB, quickScanFold, hkey]
  have h2has : mapHas (mapSet s.processMap (scanKey p) t1) (scanKey p) = true := by
    simp [mapHas, mapSet]
  have h2 : quickProcessScanCB t2 [p]
      ({ s with processMap := mapSet s.processMap (scanKey p) t1 } : MonitorState) =
      ({ s with processMap := mapSet s.processMap (scanKey p) t1 }, []) := by
    simp [quickProcessScanCB, quickScanFold, h2has]
  have h3 : cleanupOldProcesses maxAge t3
      ({ s with processMap := mapSet s.processMap (scanKey p) t1 } : MonitorState) =
      { s with processMap := s.processMap.filter (fun kv => decide (t3 - kv.2 ≤ maxAge)) } := by
    unfold cleanupOldProcesses mapSet
    rw [MonitorState.mk.injEq]
    refine ⟨rfl, ?_, rfl, rfl⟩
    rw [List.filter_append, List.filter_cons_of_neg, List.filter_nil, List.append_nil]
    simp only [decide_eq_true_eq]
    omega
  have h3has : mapHas
      (s.processMap.filter (fun kv => decide (t3 - kv.2 ≤ maxAge))) (scanKey p) = false :=
    mapHas_filter _ _ _ hkey
  have h4 : quickProcessScanCB t4 [p]
      ({ s with processMap := s.processMap.filter (fun kv => decide (t3 - kv.2 ≤ maxAge)) } :
        MonitorState) =
      ({ s with processMap :=
          mapSet (s.processMap.filter (fun kv => decide (t3 - kv.2 ≤ maxAge))) (scanKey p) t4 },
        [p]) := by
    unfold quickProcessScanCB
    rw [if_neg (by simp)]
    rw [List.foldl_cons, List.foldl_nil]
    unfold quickScanFold
    rw [if_neg (by rw [h3has]; exact Bool.false_ne_true)]
    rfl
  rw [h1]
  rw [show (({ s with processMap := mapSet s.processMap (scanKey p) t1 } : MonitorState), [p]).1 =
    ({ s with processMap := mapSet s.processMap (scanKey p) t1 } : MonitorState) from rfl]
  rw [h2]
  rw [show (({ s with processMap := mapSet s.processMap (scanKey p) t1 } : MonitorState), ([] : List ProcData)).1 =
    ({ s with processMap := mapSet s.processMap (scanKey p) t1 } : MonitorState) from rfl]
  rw [h3, h4]
  exact ⟨rfl, rfl, rfl⟩

/-- A concrete process-scan record for the dedup witness. -/
def scanProcEx : ProcData where
  Name := some "WINWORD"
  Id := some 42
  Title := some "Doc.pdf - Word"

/-- C1 witness: the three-scan schedule at concrete times 1000, 2000 (both
within the 300000 ms window) and 302002 (after a cleanup at 302001). -/
theorem dedup_once_per_residency_witness :
    (quickProcessScanCB 1000 [scanProcEx] initialState).2 = [scanProcEx] ∧
    (quickProcessScanCB 2000 [scanProcEx]
        (quickProcessScanCB 1000 [scanProcEx] initialState).1).2 = [] ∧
    (quickProcessScanCB 302002 [scanProcEx]
        (cleanupOldProcesses 300000 302001
          (quickProcessScanCB 2000 [scanProcEx]
            (quickProcessScanCB 1000 [scanProcEx] initialState).1).1)).2 = [scanProcEx] :=
  dedup_once_per_residency scanProcEx initialState 300000 1000 2000 302001 302002 (by decide)
    (by decide) (by decide)

/-- The process record of the spec's two-emission scenario: a quoted
`.docx` path on the command line and the same document in the window
title. -/
def scenarioProc : ProcData where
  Name := some "WINWORD"
  Id := some 42
  Title := some "Doc.docx - Microsoft Word"
  CommandLine := some "\"C:\\Users\\a\\Doc.docx\" /p"

/-- C7 (refuted by the code): on the scenario record, `analyzeProcess` does
not emit exactly two events — the drive-letter and bare patterns ordered
after the quoted pattern add a truncated `C:\Users\a\Doc.doc` path, so the
command-line sub-step alone emits twice. -/
theorem analyze_scenario_not_two_events :
    (analyzeProcessEvents "t0" scenarioProc).length ≠ 2 := by
  decide

/-- C7 amended: on the scenario record both sub-steps run unconditionally
and `analyzeProcess` emits exactly three events: the resolved quoted path,
its `.doc` truncation produced by the later pattern passes, and the
window-title event carrying the unknown-path sentinel (with the `.docx`
title name likewise truncated to `Doc.doc` by the ordered alternation). -/
theorem analyze_scenario_three_events :
    analyzeProcessEvents "t0" scenarioProc =
      [{ fileName := "Doc.docx", fullPath := "C:\\Users\\a\\Doc.docx", extension := ".docx",
         readerApplication := "Microsoft Word", processName := "WINWORD", processId := some 42,
         windowTitle := "Doc.docx - Microsoft Word", timestamp := "t0",
         source := "Process Analysis" },
       { fileName := "Doc.doc", fullPath := "C:\\Users\\a\\Doc.doc", extension := ".doc",
         readerApplication := "Microsoft Word", processName := "WINWORD", processId := some 42,
         windowTitle := "Doc.docx - Microsoft Word", timestamp := "t0",
         source := "Process Analysis" },
       { fileName := "Doc.doc", fullPath := "Unknown (from window title)", extension := ".doc",
         readerApplication := "Microsoft Word", processName := "WINWORD", processId := some 42,
         windowTitle := "Doc.docx - Microsoft Word", timestamp := "t0",
         source := "Window Title Analysis" }] := by
  decide

/-- The confirmation-query process record of the directory-watch
counterexample. -/
def fsProcEx : ProcData where
  Name := some "AcroRd32"
  Id := some 7
  Title := some "REPORT.PDF - Adobe Acrobat Reader"

/-- C4 (refuted by the code): on the directory-watch path the emitted
`extension` field is `path.extname(fileName)` without lowercasing, so an
upper-case filename yields `".PDF"`, which is not a member of the supported
set. -/
theorem fs_event_uppercase_extension :
    (fsEventEvents "C:\\Users\\u\\Documents" "REPORT.PDF" [fsProcEx] "t0").map
        (fun e => e.extension) = [".PDF"] ∧
    ".PDF" ∉ targetExtensions := by
  decide

/-- Every member of the supported extension set is already lowercase. -/
theorem lower_target (x : String) (h : x ∈ targetExtensions) : lowerStr x = x := by
  simp only [targetExtensions, List.mem_cons, List.not_mem_nil, or_false] at h
  rcases h with rfl | rfl | rfl <;> decide

/-- C4 amended: every event emitted through `fileOpened`, on every
detection path (process/handle analysis, window-title analysis,
directory-watch confirmation, recent files), has an `extension` field whose
lowercase form is a member of the supported set; the directory-watch path
alone may report it in the original (possibly upper) case. -/
theorem emitted_extension_lowercase_supported :
    (∀ ts p e, e ∈ analyzeProcessEvents ts p → lowerStr e.extension ∈ targetExtensions) ∧
    (∀ dir fn procs ts e, e ∈ fsEventEvents dir fn procs ts →
      lowerStr e.extension ∈ targetExtensions) ∧
    (∀ res ts e, e ∈ recentFileEvents res ts → lowerStr e.extension ∈ targetExtensions) := by
  refine ⟨?_, ?_, ?_⟩
  · intro ts p e he
    rw [analyzeProcessEvents, List.mem_append] at he
    rcases he with he | he
    · rw [analyzeCmdEvents] at he
      split at he
      · rw [List.mem_filterMap] at he
        obtain ⟨fp, _, hfp⟩ := he
        split at hfp
        · next hext =>
          cases hfp
          rw [lower_target _ hext]
          exact hext
        · exact absurd hfp (by simp)
      · exact absurd he (by simp)
    · rw [analyzeTitleEvents] at he
      split at he
      · rw [List.mem_filterMap] at he
        obtain ⟨fn, _, hfn⟩ := he
        split at hfn
        · next hext =>
          cases hfn
          rw [lower_target _ hext]
          exact hext
        · exact absurd hfn (by simp)
      · exact absurd he (by simp)
  · intro dir fn procs ts e he
    rw [fsEventEvents] at he
    split at he
    · next fp fn0 hsome =>
      rw [handleFileSystemEvent] at hsome
      split at hsome
      · next hext =>
        cases hsome
        rw [checkFileAccessEvents, List.mem_map] at he
        obtain ⟨pr, _, hpr⟩ := he
        cases hpr
        exact hext
      · exact absurd hsome (by simp)
    · exact absurd he (by simp)
  · intro res ts e he
    rw [recentFileEvents] at he
    split at he
    · split at he
      · next hext =>
        rw [List.mem_singleton] at he
        cases he
        rw [lower_target _ hext]
        exact hext
      · exact absurd he (by simp)
    · exact absurd he (by simp)

/-- The event the directory-watch counterexample emits. -/
def fsEventEx : FileOpenEvent where
  fileName := "REPORT.PDF"
  fullPath := "C:\\Users\\u\\Documents\\REPORT.PDF"
  extension := ".PDF"
  readerApplication := "Adobe Acrobat Reader"
  processName := "AcroRd32"
  processId := some 7
  windowTitle := "REPORT.PDF - Adobe Acrobat Reader"
  timestamp := "t0"
  source := "File System Monitor"

/-- C4 witness: the lowercase form of the concrete `.PDF` event's extension
is in the supported set. -/
theorem emitted_extension_lowercase_supported_witness :
    lowerStr fsEventEx.extension ∈ targetExtensions :=
  emitted_extension_lowercase_supported.2.1 "C:\\Users\\u\\Documents" "REPORT.PDF" [fsProcEx]
    "t0" fsEventEx (by decide)

/-- `ciPre` succeeds exactly when the lowercased head of `cs` is the
pattern. -/
theorem ciPre_eq_map (pat : List Char) : ∀ cs : List Char,
    ciPre pat cs = true ↔ pat.length ≤ cs.length ∧ (cs.take pat.length).map lowerC = pat := by
  induction pat with
  | nil => intro cs; simp [ciPre]
  | cons p ps ih =>
    intro cs
    cases cs with
    | nil => simp [ciPre]
    | cons c cr =>
      simp only [ciPre, Bool.and_eq_true, beq_iff_eq, ih cr, List.length_cons, List.take_succ_cons,
        List.map_cons, List.cons.injEq, Nat.add_le_add_iff_right]
      constructor
      · rintro ⟨h1, h2, h3⟩
        exact ⟨h2, h1, h3⟩
      · rintro ⟨h2, h1, h3⟩
        exact ⟨h1, h2, h3⟩

/-- `ciSuf` succeeds exactly when some suffix of `cs` lowercases to the
pattern. -/
theorem ciSuf_iff (pat cs : List Char) :
    ciSuf pat cs = true ↔ ∃ a b, cs = a ++ b ∧ b.map lowerC = pat := by
  unfold ciSuf
  rw [Bool.and_eq_true, decide_eq_true_eq, ciPre_eq_map]
  constructor
  · rintro ⟨hlen, hlen2, hmap⟩
    rw [List.take_of_length_le (by rw [List.length_drop]; omega)] at hmap
    exact ⟨_, _, (List.take_append_drop _ _).symm, hmap⟩
  · rintro ⟨a, b, rfl, hmap⟩
    have hb : b.length = pat.length := by rw [← hmap, List.length_map]
    have hlen : pat.length ≤ (a ++ b).length := by rw [List.length_append]; omega
    have hdrop : (a ++ b).drop ((a ++ b).length - pat.length) = b := by
      rw [List.length_append, show a.length + b.length - pat.length = a.length from by omega]
      exact List.drop_left a b
    refine ⟨hlen, ?_, ?_⟩
    · rw [hdrop]
      omega
    · rw [hdrop, List.take_of_length_le (by omega), hmap]

/-- A body satisfying the quoted-pattern check is nonempty. -/
theorem qMatch_ne_nil (p : List Char) (h : qMatch p = true) : p ≠ [] := by
  intro hnil
  subst hnil
  exact absurd h (by decide)

/-- Splitting a list at its first quote when the prefix is quote free. -/
theorem split_at_quote (p post : List Char) (hp : '"' ∉ p) :
    (p ++ '"' :: post).takeWhile (fun x => x != '"') = p ∧
    (p ++ '"' :: post).dropWhile (fun x => x != '"') = '"' :: post := by
  induction p with
  | nil => simp [List.takeWhile, List.dropWhile]
  | cons c cr ih =>
    have hc : c ≠ '"' := fun hh => hp (hh ▸ List.mem_cons_self c cr)
    have ihr := ih (fun hm => hp (List.mem_cons_of_mem c hm))
    simp only [List.cons_append, List.takeWhile_cons, List.dropWhile_cons]
    rw [if_pos (by simp [hc]), if_pos (by simp [hc])]
    exact ⟨by rw [ihr.1], ihr.2⟩

/-- When the text before a quoted occurrence contains no quote, the quoted
pass matches that occurrence first: its body is the head of the match
list. -/
theorem quotedPass_finds (pre : List Char) : ∀ (fuel : Nat) (p post : List Char),
    (pre ++ '"' :: (p ++ '"' :: post)).length ≤ fuel → '"' ∉ pre → '"' ∉ p →
    qMatch p = true →
    ∃ rest, quotedPass fuel (pre ++ '"' :: (p ++ '"' :: post)) = p :: rest := by
  induction pre with
  | nil =>
    intro fuel p post hfuel hpre hp hq
    cases fuel with
    | zero => simp at hfuel
    | succ f =>
      refine ⟨quotedPass f post, ?_⟩
      simp only [List.nil_append, quotedPass, if_pos rfl]
      rw [(split_at_quote p post hp).1, (split_at_quote p post hp).2, hq]
      simp
  | cons c cr ih =>
    intro fuel p post hfuel hpre hp hq
    cases fuel with
    | zero => simp at hfuel
    | succ f =>
      have hc : c ≠ '"' := fun hh => hpre (hh ▸ List.mem_cons_self c cr)
      have hcr : '"' ∉ cr := fun hm => hpre (List.mem_cons_of_mem c hm)
      obtain ⟨rest, hrest⟩ := ih f p post (by simp at hfuel ⊢; omega) hcr hp hq
      refine ⟨rest, ?_⟩
      simp only [List.cons_append, quotedPass, if_neg hc]
      exact hrest

/-- A nonempty first match of a pass survives into the accumulated path
list. -/
theorem mem_pushAll_head (x : List Char) (rest l2 l3 : List (List Char)) (hx : x ≠ []) :
    x ∈ pushAll (pushAll (pushAll [] (x :: rest)) l2) l3 := by
  have h1 : x ∈ pushAll [] (x :: rest) := by
    show x ∈ pushAll (pushUnique [] x) rest
    refine mem_pushAll _ _ _ ?_
    unfold pushUnique
    rw [if_neg hx]
    simp
  exact mem_pushAll _ _ _ (mem_pushAll _ _ _ h1)

/-- C5 (refuted by the code): in `"A.pdf"B.docx"` the quoted occurrence of
`B.docx` (a path with a supported extension) is never returned — the quoted
pass consumes its opening quote as the closing quote of `"A.pdf"`, and the
bare pass truncates the name to `B.doc` — so `extractFilePaths` returns it
zero times, not once. -/
theorem quoted_docx_path_missed :
    ("\"A.pdf\"B.docx\"" : String) = "\"A.pdf" ++ "\"" ++ "B.docx" ++ "\"" ++ "" ∧
    ['.', 'd', 'o', 'c', 'x'] <:+ "B.docx".toList ∧
    extractFilePaths "\"A.pdf\"B.docx\"" = ["A.pdf", "B.doc"] ∧
    (extractFilePaths "\"A.pdf\"B.docx\"").count "B.docx" = 0 := by
  refine ⟨by decide, by decide, by decide, by decide⟩

/-- C5 amended: for every command-line string of the shape
`pre ++ "\"" ++ p ++ "\"" ++ post` where the text `pre` before the quoted
path contains no double quote, the quote-free path `p` ends with a
supported extension, `extractFilePaths` returns `p` exactly once — the
quoted pass finds it first and the duplicate filter blocks every further
match of it by the three passes. -/
theorem extractFilePaths_quoted_once (pre p post : String)
    (hpre : '"' ∉ pre.toList) (hp : '"' ∉ p.toList)
    (hext : ['.', 'p', 'd', 'f'] <:+ p.toList ∨ ['.', 'd', 'o', 'c'] <:+ p.toList ∨
      ['.', 'd', 'o', 'c', 'x'] <:+ p.toList) :
    (extractFilePaths (pre ++ "\"" ++ p ++ "\"" ++ post)).count p = 1 := by
  have hq : qMatch p.toList = true := by
    unfold qMatch
    rcases hext with h | h | h <;> obtain ⟨t, ht⟩ := h
    · rw [(ciSuf_iff ['.', 'p', 'd', 'f'] p.toList).mpr ⟨t, _, ht.symm, by decide⟩]
      simp
    · rw [(ciSuf_iff ['.', 'd', 'o', 'c'] p.toList).mpr ⟨t, _, ht.symm, by decide⟩]
      simp
    · rw [(ciSuf_iff ['.', 'd', 'o', 'c', 'x'] p.toList).mpr ⟨t, _, ht.symm, by decide⟩]
      simp
  have hdata : (pre ++ "\"" ++ p ++ "\"" ++ post).toList =
      pre.toList ++ '"' :: (p.toList ++ '"' :: post.toList) := by
    show (pre ++ "\"" ++ p ++ "\"" ++ post).data =
      pre.data ++ '"' :: (p.data ++ '"' :: post.data)
    simp [String.data_append]
  have hne : (pre ++ "\"" ++ p ++ "\"" ++ post) ≠ "" := by
    intro hmm
    have : (pre ++ "\"" ++ p ++ "\"" ++ post).toList = [] := by rw [hmm]; rfl
    rw [hdata] at this
    simp at this
  have hmk : String.mk p.toList = p := by
    obtain ⟨d⟩ := p
    rfl
  unfold extractFilePaths
  rw [if_neg hne, ← hmk, List.count_map_of_injective _ String.mk string_mk_injective]
  obtain ⟨rest, hrest⟩ := quotedPass_finds pre.toList
    (pre ++ "\"" ++ p ++ "\"" ++ post).toList.length p.toList post.toList
    (by rw [hdata]) hpre hp hq
  have hmem : p.toList ∈ extractFilePathsCore (pre ++ "\"" ++ p ++ "\"" ++ post).toList := by
    unfold extractFilePathsCore
    rw [show (pre ++ "\"" ++ p ++ "\"" ++ post).toList =
      pre.toList ++ '"' :: (p.toList ++ '"' :: post.toList) from hdata] at hrest ⊢
    rw [hrest]
    exact mem_pushAll_head _ _ _ _ (qMatch_ne_nil _ hq)
  exact List.count_eq_one_of_mem (extractFilePathsCore_nodup _) hmem

/-- C5 witness: a concrete well-formed command line with a quoted `.docx`
path before a flag argument. -/
theorem extractFilePaths_quoted_once_witness :
    (extractFilePaths ("start " ++ "\"" ++ "C:\\a\\Doc.docx" ++ "\"" ++ " /p")).count
      "C:\\a\\Doc.docx" = 1 :=
  extractFilePaths_quoted_once "start " "C:\\a\\Doc.docx" " /p" (by decide) (by decide)
    (Or.inr (Or.inr (by decide)))

/-- Reference alternation order for the specification reading of the title
extraction: the full supported set with the longer `docx` preferred, so a
`.docx` name is matched in full. -/
def specOrder : List (List Char) := [pdfE, docxE, docE]

/-- Reference title extraction following the spec's words ("returns exactly
the matching substrings in order of appearance"): the same leftmost greedy
scan as the source, but with the `docx` alternative reachable. -/
def titleMatchesSpec (title : String) : List String :=
  (execLoop stopT specOrder title.toList.length title.toList).map String.mk

/-- Truncation of a full `.docx` match to the `.doc` match the
implementation produces: drop the final character. -/
def truncDocx (g : List Char) : List Char :=
  if ciSuf ['.', 'd', 'o', 'c', 'x'] g then g.dropLast else g

/-- String form of `truncDocx`. -/
def truncDocxStr (s : String) : String := String.mk (truncDocx s.toList)

/-- A successful `extTry` returns a member of the alternation that
case-insensitively prefixes the input. -/
theorem extTry_mem (o : List (List Char)) (cs e : List Char) (h : extTry o cs = some e) :
    e ∈ o ∧ ciPre e cs = true := by
  unfold extTry at h
  constructor
  · exact List.mem_of_find?_eq_some h
  · have hp := List.find?_some h
    exact hp

/-- A `scanDots` match splits the input, and (for alternations of
extensions of at least three characters) spans at least four characters. -/
theorem scanDots_split (stop : Char → Bool) (o : List (List Char))
    (ho : ∀ e ∈ o, 3 ≤ e.length) : ∀ cs g r, scanDots stop o cs = some (g, r) →
    cs = g ++ r ∧ 4 ≤ g.length := by
  intro cs
  induction cs with
  | nil => intro g r h; simp [scanDots] at h
  | cons c rest ih =>
    intro g r h
    rw [scanDots] at h
    split at h
    · exact absurd h (by simp)
    · split at h
      · next g0 r0 hrest =>
        rw [Option.some.injEq, Prod.mk.injEq] at h
        obtain ⟨hg, hr⟩ := h
        obtain ⟨hsplit, hlen⟩ := ih g0 r0 hrest
        subst hg
        subst hr
        constructor
        · rw [List.cons_append, ← hsplit]
        · simp only [List.length_cons]
          omega
      · split at h
        · split at h
          · next e hext =>
            rw [Option.some.injEq, Prod.mk.injEq] at h
            obtain ⟨hg, hr⟩ := h
            obtain ⟨hmem, hpre⟩ := extTry_mem o rest e hext
            have hle : e.length ≤ rest.length := ((ciPre_eq_map e rest).mp hpre).1
            subst hg
            subst hr
            constructor
            · rw [List.cons_append, List.take_append_drop]
            · have h3 := ho e hmem
              simp only [List.length_cons, List.length_take]
              omega
          · exact absurd h (by simp)
        · exact absurd h (by simp)

/-- `execLoop` on the empty input is empty for any fuel. -/
theorem execLoop_nil (stop : Char → Bool) (o : List (List Char)) (f : Nat) :
    execLoop stop o f [] = [] := by
  cases f <;> rfl

/-- The fuel of `execLoop` is irrelevant once it covers the input length. -/
theorem execLoop_fuel (stop : Char → Bool) (o : List (List Char))
    (ho : ∀ e ∈ o, 3 ≤ e.length) : ∀ f1 f2 cs, cs.length ≤ f1 → cs.length ≤ f2 →
    execLoop stop o f1 cs = execLoop stop o f2 cs := by
  intro f1
  induction f1 with
  | zero =>
    intro f2 cs h1 h2
    have : cs = [] := List.length_eq_zero.mp (Nat.le_zero.mp h1)
    subst this
    rw [execLoop_nil, execLoop_nil]
  | succ f ih =>
    intro f2 cs h1 h2
    cases cs with
    | nil => rw [execLoop_nil, execLoop_nil]
    | cons c rest =>
      cases f2 with
      | zero => simp at h2
      | succ f2 =>
        simp only [execLoop]
        cases hscan : scanDots stop o (c :: rest) with
        | some gr =>
          obtain ⟨g, r⟩ := gr
          obtain ⟨hsplit, hg⟩ := scanDots_split stop o ho _ _ _ hscan
          have hr : r.length + 4 ≤ (c :: rest).length := by
            rw [hsplit, List.length_append]
            omega
          simp only [List.length_cons] at h1 h2 hr
          dsimp only
          rw [ih f2 r (by omega) (by omega)]
        | none =>
          simp only [List.length_cons] at h1 h2
          dsimp only
          exact ih f2 rest (by omega) (by omega)

/-- Characters that lowercase to `d`, `o` or `c` are not in the title
regex's excluded class. -/
theorem stopT_false_of_lower_letter (c : Char)
    (h : lowerC c = 'd' ∨ lowerC c = 'o' ∨ lowerC c = 'c') : stopT c = false := by
  rw [Bool.eq_false_iff]
  intro ht
  rw [stopT, Bool.or_eq_true, beq_iff_eq, beq_iff_eq] at ht
  rcases ht with rfl | rfl <;> rcases h with h | h | h <;> exact absurd h (by decide)

/-- If no match starts at a non-excluded character, none starts right after
it either. -/
theorem scanDots_none_tail (stop : Char → Bool) (o : List (List Char)) (a : Char)
    (t : List Char) (ha : stop a = false) (h : scanDots stop o (a :: t) = none) :
    scanDots stop o t = none := by
  rw [scanDots, if_neg (by rw [ha]; exact Bool.false_ne_true)] at h
  cases hs : scanDots stop o t with
  | some gr =>
    obtain ⟨g, r⟩ := gr
    rw [hs] at h
    exact absurd h (by simp)
  | none => rfl

/-- A `docx` case-insensitive prefix is in particular a `doc` one. -/
theorem ciPre_docx_doc (cs : List Char) (h : ciPre docxE cs = true) : ciPre docE cs = true := by
  rw [ciPre_eq_map] at h ⊢
  obtain ⟨hlen, hmap⟩ := h
  simp only [docxE, List.length_cons, List.length_nil] at hlen
  refine ⟨by simp only [docE, List.length_cons, List.length_nil]; omega, ?_⟩
  have htake : cs.take docE.length = (cs.take docxE.length).take docE.length := by
    rw [List.take_take]
    norm_num [docE, docxE]
  rw [htake, List.map_take, hmap]
  decide

/-- A match ending in a `.pdf` or `.doc` tail is unaffected by `truncDocx`,
whatever precedes it. -/
theorem truncDocx_no_x (pre0 tail : List Char)
    (h : tail.map lowerC = ['.', 'p', 'd', 'f'] ∨ tail.map lowerC = ['.', 'd', 'o', 'c']) :
    truncDocx (pre0 ++ tail) = pre0 ++ tail := by
  unfold truncDocx
  have hnot : ¬ ciSuf ['.', 'd', 'o', 'c', 'x'] (pre0 ++ tail) = true := by
    intro hsuf
    rw [ciSuf_iff] at hsuf
    obtain ⟨a, b, heq, hmap⟩ := hsuf
    have hb5 : b.length = 5 := by
      have := congrArg List.length hmap
      rw [List.length_map] at this
      exact this
    obtain ⟨x0, x1, x2, x3, x4, rfl⟩ : ∃ x0 x1 x2 x3 x4, b = [x0, x1, x2, x3, x4] := by
      match b, hb5 with
      | [x0, x1, x2, x3, x4], _ => exact ⟨x0, x1, x2, x3, x4, rfl⟩
    have ht4 : tail.length = 4 := by
      rcases h with h | h <;> rw [← List.length_map tail lowerC, h] <;> rfl
    have heq2 : pre0 ++ tail = (a ++ [x0]) ++ [x1, x2, x3, x4] := by
      rw [heq]
      simp
    have htail : tail = [x1, x2, x3, x4] := (List.append_inj' heq2 (by rw [ht4]; rfl)).2
    rw [htail] at h
    simp only [List.map_cons, List.map_nil, List.cons.injEq, and_true] at h hmap
    rcases h with ⟨h1, _⟩ | ⟨h1, _⟩ <;> rw [hmap.2.1] at h1 <;> exact absurd h1 (by decide)
  rw [if_neg hnot]

/-- A match whose tail lowercases to `.docx` is truncated by dropping the
final character, whatever precedes it. -/
theorem truncDocx_x (pre0 tail : List Char)
    (h : tail.map lowerC = ['.', 'd', 'o', 'c', 'x']) :
    truncDocx (pre0 ++ tail) = pre0 ++ tail.dropLast := by
  unfold truncDocx
  rw [if_pos ((ciSuf_iff _ _).mpr ⟨pre0, tail, rfl, h⟩)]
  have hne : tail ≠ [] := by
    intro hh
    rw [hh] at h
    exact absurd h (by decide)
  conv_lhs => rw [← List.dropLast_append_getLast hne]
  rw [← List.append_assoc, List.dropLast_concat]

/-- Step form of `scanDots` at a dot with no later match and a matching
alternative. -/
theorem scanDots_dot (stop : Char → Bool) (o : List (List Char)) (rest : List Char)
    (hstop : stop '.' = false) (hrest : scanDots stop o rest = none) (e : List Char)
    (hext : extTry o rest = some e) :
    scanDots stop o ('.' :: rest) = some ('.' :: rest.take e.length, rest.drop e.length) := by
  rw [scanDots, if_neg (by rw [hstop]; exact Bool.false_ne_true), hrest]
  dsimp only
  rw [if_pos rfl, hext]

/-- Step form of `scanDots` at a dot with no later match and no matching
alternative. -/
theorem scanDots_dot_none (stop : Char → Bool) (o : List (List Char)) (rest : List Char)
    (hstop : stop '.' = false) (hrest : scanDots stop o rest = none)
    (hext : extTry o rest = none) : scanDots stop o ('.' :: rest) = none := by
  rw [scanDots, if_neg (by rw [hstop]; exact Bool.false_ne_true), hrest]
  dsimp only
  rw [if_pos rfl, hext]

/-- Step form of `scanDots` when a later match exists: the greedy star
extends through the current character. -/
theorem scanDots_cons_some (stop : Char → Bool) (o : List (List Char)) (c : Char)
    (rest g r : List Char) (hc : stop c = false)
    (hrest : scanDots stop o rest = some (g, r)) :
    scanDots stop o (c :: rest) = some (c :: g, r) := by
  rw [scanDots, if_neg (by rw [hc]; exact Bool.false_ne_true), hrest]

/-- Step form of `scanDots` at a non-dot character with no later match. -/
theorem scanDots_cons_none (stop : Char → Bool) (o : List (List Char)) (c : Char)
    (rest : List Char) (hc : stop c = false) (hdot : c ≠ '.')
    (hrest : scanDots stop o rest = none) : scanDots stop o (c :: rest) = none := by
  rw [scanDots, if_neg (by rw [hc]; exact Bool.false_ne_true), hrest]
  dsimp only
  rw [if_neg hdot]

/-- Correspondence of the two alternation orders at one start position:
either both scans fail, or both produce the same match (extension `pdf` or
`doc`, unaffected by `truncDocx` under any prefix), or the reference scan
matches a full `.docx` while the implementation stops one character short —
and then no match can start at the leftover character. -/
theorem scanDots_impl_spec : ∀ cs : List Char,
    (scanDots stopT implOrder cs = none ∧ scanDots stopT specOrder cs = none) ∨
    (∃ g r, scanDots stopT implOrder cs = some (g, r) ∧
      scanDots stopT specOrder cs = some (g, r) ∧
      ∀ pre0, truncDocx (pre0 ++ g) = pre0 ++ g) ∨
    (∃ g x r, scanDots stopT implOrder cs = some (g, x :: r) ∧
      scanDots stopT specOrder cs = some (g ++ [x], r) ∧
      (∀ pre0, truncDocx (pre0 ++ (g ++ [x])) = pre0 ++ g) ∧
      scanDots stopT implOrder (x :: r) = none) := by
  intro cs
  induction cs with
  | nil => exact Or.inl ⟨rfl, rfl⟩
  | cons c rest ih =>
    by_cases hc : stopT c = true
    · refine Or.inl ⟨?_, ?_⟩ <;> rw [scanDots, if_pos hc]
    · have hcF : stopT c = false := by
        cases h2 : stopT c
        · rfl
        · exact absurd h2 hc
      rcases ih with ⟨hni, hns⟩ | ⟨g, r, hi, hs, htr⟩ | ⟨g, x, r, hi, hs, htr, hxn⟩
      · by_cases hdot : c = '.'
        · subst hdot
          cases hpdf : ciPre pdfE rest with
          | true =>
            have hei : extTry implOrder rest = some pdfE := by
              simp [extTry, implOrder, List.find?_cons, hpdf]
            have hes : extTry specOrder rest = some pdfE := by
              simp [extTry, specOrder, List.find?_cons, hpdf]
            refine Or.inr (Or.inl ⟨'.' :: rest.take pdfE.length, rest.drop pdfE.length,
              scanDots_dot stopT implOrder rest (by decide) hni pdfE hei,
              scanDots_dot stopT specOrder rest (by decide) hns pdfE hes, ?_⟩)
            intro pre0
            refine truncDocx_no_x pre0 ('.' :: rest.take pdfE.length) (Or.inl ?_)
            rw [List.map_cons, ((ciPre_eq_map pdfE rest).mp hpdf).2]
            rfl
          | false =>
            cases hdocx : ciPre docxE rest with
            | true =>
              have hdoc : ciPre docE rest = true := ciPre_docx_doc rest hdocx
              have hei : extTry implOrder rest = some docE := by
                simp [extTry, implOrder, List.find?_cons, hpdf, hdoc]
              have hes : extTry specOrder rest = some docxE := by
                simp [extTry, specOrder, List.find?_cons, hpdf, hdocx]
              obtain ⟨hlen4, hmap4⟩ := (ciPre_eq_map docxE rest).mp hdocx
              obtain ⟨r0, r1, r2, r3, rest4, rfl⟩ :
                  ∃ a b c2 d t, rest = a :: b :: c2 :: d :: t := by
                cases rest with
                | nil => simp [docxE] at hlen4
                | cons a t1 =>
                  cases t1 with
                  | nil => simp [docxE] at hlen4
                  | cons b t2 =>
                    cases t2 with
                    | nil => simp [docxE] at hlen4
                    | cons c2 t3 =>
                      cases t3 with
                      | nil => simp [docxE] at hlen4
                      | cons d t4 => exact ⟨a, b, c2, d, t4, rfl⟩
              simp only [docxE, List.length_cons, List.length_nil, List.take_succ_cons,
                List.take_zero, List.map_cons, List.map_nil, List.cons.injEq, and_true] at hmap4
              obtain ⟨hd0, hd1, hd2, hd3⟩ := hmap4
              refine Or.inr (Or.inr ⟨['.', r0, r1, r2], r3, rest4, ?_, ?_, ?_, ?_⟩)
              · have := scanDots_dot stopT implOrder (r0 :: r1 :: r2 :: r3 :: rest4)
                  (by decide) hni docE hei
                exact this
              · have := scanDots_dot stopT specOrder (r0 :: r1 :: r2 :: r3 :: rest4)
                  (by decide) hns docxE hes
                exact this
              · intro pre0
                have hmapt : (['.', r0, r1, r2, r3] : List Char).map lowerC =
                    ['.', 'd', 'o', 'c', 'x'] := by
                  simp [hd0, hd1, hd2, hd3]
                  decide
                have := truncDocx_x pre0 ['.', r0, r1, r2, r3] hmapt
                exact this
              · have hn1 : scanDots stopT implOrder (r1 :: r2 :: r3 :: rest4) = none :=
                  scanDots_none_tail stopT implOrder r0 _
                    (stopT_false_of_lower_letter r0 (Or.inl hd0)) hni
                have hn2 : scanDots stopT implOrder (r2 :: r3 :: rest4) = none :=
                  scanDots_none_tail stopT implOrder r1 _
                    (stopT_false_of_lower_letter r1 (Or.inr (Or.inl hd1))) hn1
                exact scanDots_none_tail stopT implOrder r2 _
                  (stopT_false_of_lower_letter r2 (Or.inr (Or.inr hd2))) hn2
            | false =>
              cases hdoc : ciPre docE rest with
              | true =>
                have hei : extTry implOrder rest = some docE := by
                  simp [extTry, implOrder, List.find?_cons, hpdf, hdoc]
                have hes : extTry specOrder rest = some docE := by
                  simp [extTry, specOrder, List.find?_cons, hpdf, hdocx, hdoc]
                refine Or.inr (Or.inl ⟨'.' :: rest.take docE.length, rest.drop docE.length,
                  scanDots_dot stopT implOrder rest (by decide) hni docE hei,
                  scanDots_dot stopT specOrder rest (by decide) hns docE hes, ?_⟩)
                intro pre0
                refine truncDocx_no_x pre0 ('.' :: rest.take docE.length) (Or.inr ?_)
                rw [List.map_cons, ((ciPre_eq_map docE rest).mp hdoc).2]
                rfl
              | false =>
                have hei : extTry implOrder rest = none := by
                  simp [extTry, implOrder, List.find?_cons, hpdf, hdoc, hdocx]
                have hes : extTry specOrder rest = none := by
                  simp [extTry, specOrder, List.find?_cons, hpdf, hdocx, hdoc]
                exact Or.inl ⟨scanDots_dot_none stopT implOrder rest (by decide) hni hei,
                  scanDots_dot_none stopT specOrder rest (by decide) hns hes⟩
        · exact Or.inl ⟨scanDots_cons_none stopT implOrder c rest hcF hdot hni,
            scanDots_cons_none stopT specOrder c rest hcF hdot hns⟩
      · refine Or.inr (Or.inl ⟨c :: g, r,
          scanDots_cons_some stopT implOrder c rest g r hcF hi,
          scanDots_cons_some stopT specOrder c rest g r hcF hs, ?_⟩)
        intro pre0
        rw [show pre0 ++ (c :: g) = (pre0 ++ [c]) ++ g from by simp, htr (pre0 ++ [c])]
      · refine Or.inr (Or.inr ⟨c :: g, x, r,
          scanDots_cons_some stopT implOrder c rest g (x :: r) hcF hi, ?_, ?_, hxn⟩)
        · have := scanDots_cons_some stopT specOrder c rest (g ++ [x]) r hcF hs
          exact this
        · intro pre0
          rw [show pre0 ++ (c :: g ++ [x]) = (pre0 ++ [c]) ++ (g ++ [x]) from by simp,
            htr (pre0 ++ [c])]
          simp

/-- The implementation's title exec loop equals the reference loop with
every match truncated by `truncDocx` — at every fuel covering the input. -/
theorem execLoop_impl_spec : ∀ (fuel : Nat) (cs : List Char), cs.length ≤ fuel →
    execLoop stopT implOrder fuel cs = (execLoop stopT specOrder fuel cs).map truncDocx := by
  intro fuel
  induction fuel with
  | zero => intro cs h; rfl
  | succ f ih =>
    intro cs hlen
    cases cs with
    | nil => rfl
    | cons c rest =>
      rcases scanDots_impl_spec (c :: rest) with ⟨hni, hns⟩ | ⟨g, r, hi, hs, htr⟩ |
        ⟨g, x, r, hi, hs, htr, hxn⟩
      · simp only [execLoop, hni, hns]
        exact ih rest (by simp only [List.length_cons] at hlen; omega)
      · obtain ⟨hsplit, hg4⟩ := scanDots_split stopT implOrder (by decide) _ _ _ hi
        have hr : r.length + 4 ≤ (c :: rest).length := by
          rw [hsplit, List.length_append]
          omega
        simp only [List.length_cons] at hlen hr
        simp only [execLoop, hi, hs]
        rw [List.map_cons]
        have htr0 := htr []
        rw [List.nil_append] at htr0
        rw [htr0, ih r (by omega)]
      · obtain ⟨hsplit, hg4⟩ := scanDots_split stopT implOrder (by decide) _ _ _ hi
        have hr : (x :: r).length + 4 ≤ (c :: rest).length := by
          rw [hsplit, List.length_append]
          omega
        simp only [List.length_cons] at hlen hr
        simp only [execLoop, hi, hs]
        cases f with
        | zero => exact (by omega : False).elim
        | succ f2 =>
          have hstep : execLoop stopT implOrder (f2 + 1) (x :: r) =
              execLoop stopT implOrder f2 r := by
            simp only [execLoop, hxn]
          rw [hstep,
            execLoop_fuel stopT implOrder (by decide) f2 (f2 + 1) r (by omega) (by omega),
            List.map_cons]
          have htr0 := htr []
          rw [List.nil_append, List.nil_append] at htr0
          rw [htr0, ih r (by omega)]

/-- C6 (refuted by the code): the title `Doc.docx - Microsoft Word`
contains the matching substring `Doc.docx`, but the function returns only
the truncated `Doc.doc` — the ordered alternation `(pdf|doc|docx)` matches
`doc` before ever trying `docx`. -/
theorem title_docx_truncated :
    extractFileNamesFromTitle "Doc.docx - Microsoft Word" = ["Doc.doc"] ∧
    titleMatchesSpec "Doc.docx - Microsoft Word" = ["Doc.docx"] ∧
    "Doc.docx" ∉ extractFileNamesFromTitle "Doc.docx - Microsoft Word" := by
  refine ⟨by decide, by decide, by decide⟩

/-- C6 amended: for every window title, `extractFileNamesFromTitle` returns
exactly the matching substrings in order of appearance, except that every
match whose extension is `.docx` is returned with its final character
dropped (extension truncated to `.doc`), because the alternation tries
`doc` before `docx`. -/
theorem extractFileNamesFromTitle_eq_spec (title : String) :
    extractFileNamesFromTitle title = (titleMatchesSpec title).map truncDocxStr := by
  unfold extractFileNamesFromTitle titleMatchesSpec
  rw [execLoop_impl_spec title.toList.length title.toList le_rfl, List.map_map, List.map_map]
  rfl

/-- C6 witness: the truncation law evaluated on a concrete two-file
title. -/
theorem extractFileNamesFromTitle_eq_spec_witness :
    extractFileNamesFromTitle "Budget.docx | Notes.pdf" =
      (titleMatchesSpec "Budget.docx | Notes.pdf").map truncDocxStr :=
  extractFileNamesFromTitle_eq_spec "Budget.docx | Notes.pdf"
